import Mathlib

/-!
Verification model of the paint-canvas layer stores and history trackers
(`layer_store.py`, `undo.py`, `replay.py`).  Pure functions are translated
directly; the mutable stores become explicit state passing.  The container
modules (`data_structures/*`) and the layer registry (`layers.py`,
`layer_util.py`) are not part of the sources, so they are modelled from the
spec where needed; each such definition is marked `Modelled from the spec`.
Exceptions raised by container accesses are modelled as `Option` results
(`none` = the operation raised).
-/

set_option maxRecDepth 100000

namespace Paint

/-- RGB colour triple, as the Python `tuple[int, int, int]`. -/
abbrev Color := Nat × Nat × Nat

/-- Modelled from the spec: a `Layer` from the missing `layer_util.py` is an
immutable descriptor with a unique type `index`, a display `name`, a
background colour `bg`, and a pure colour transform
`apply(color, timestamp, x, y) -> color`, kept here as a function field. -/
structure Layer where
  index : Nat
  name : String
  bg : Color
  apply : Color → Nat → Nat → Nat → Color

/-- The channel-wise inverse of a colour: per channel, `255` minus the value. -/
def channelInverse (c : Color) : Color :=
  (255 - c.1, 255 - c.2.1, 255 - c.2.2)

/-- Modelled from the spec: the `invert` layer of the missing `layers.py`;
its transform returns the channel-wise inverse of the input colour,
independent of timestamp and position. -/
def invert : Layer :=
  { index := 6, name := "invert", bg := (255, 255, 255),
    apply := fun c _ _ _ => channelInverse c }

/-! ### SetLayerStore (`layer_store.py`, lines 45-156) -/

/-- State of `SetLayerStore`: the last layer applied (or none) and the
`special_switch` invert flag. -/
structure SetLayerStore where
  layer : Option Layer
  special_switch : Bool

/-- `SetLayerStore.__init__`: no layer, switch off. -/
def SetLayerStore.init : SetLayerStore := ⟨none, false⟩

/-- `SetLayerStore.add`: replace the stored layer unless one with the same
background colour is already stored; report whether the store changed. -/
def SetLayerStore.add (s : SetLayerStore) (l : Layer) : Bool × SetLayerStore :=
  match s.layer with
  | none => (true, { s with layer := some l })
  | some cur =>
    if cur.bg ≠ l.bg then (true, { s with layer := some l })
    else (false, s)

/-- `SetLayerStore.erase`: clear the stored layer if any (argument unused);
report whether the store changed. -/
def SetLayerStore.erase (s : SetLayerStore) (_l : Layer) : Bool × SetLayerStore :=
  match s.layer with
  | none => (false, s)
  | some _ => (true, { s with layer := none })

/-- `SetLayerStore.special`: toggle the invert switch. -/
def SetLayerStore.special (s : SetLayerStore) : SetLayerStore :=
  if s.special_switch = true then { s with special_switch := false }
  else { s with special_switch := true }

/-- `SetLayerStore.get_color`: apply the stored layer (if any) to `start`,
then apply `invert` when the switch is set.  Note the inversion happens
whether or not a layer is stored. -/
def SetLayerStore.get_color (s : SetLayerStore) (start : Color) (t x y : Nat) : Color :=
  let c := match s.layer with
    | some l => l.apply start t x y
    | none => start
  if s.special_switch then invert.apply c t x y else c

/-- An `add` or `erase` call on a `SetLayerStore` (the calls C10 quantifies
over). -/
inductive SetOp where
  | add (l : Layer)
  | erase (l : Layer)

/-- Run one `add`/`erase` call, keeping only the store state. -/
def SetLayerStore.runOp (s : SetLayerStore) : SetOp → SetLayerStore
  | .add l => (s.add l).2
  | .erase l => (s.erase l).2

/-- Run a sequence of `add`/`erase` calls. -/
def SetLayerStore.runOps (s : SetLayerStore) (ops : List SetOp) : SetLayerStore :=
  ops.foldl SetLayerStore.runOp s

/-- Call `special()` `n` times in a row. -/
def SetLayerStore.runSpecials (s : SetLayerStore) : Nat → SetLayerStore
  | 0 => s
  | n + 1 => SetLayerStore.runSpecials s.special n

theorem SetLayerStore.runOp_special_switch (s : SetLayerStore) (op : SetOp) :
    (s.runOp op).special_switch = s.special_switch := by
  rcases op with l | l
  · rcases s with ⟨_ | cur, sw⟩
    · rfl
    · by_cases h : cur.bg = l.bg
      · simp [runOp, SetLayerStore.add, h]
      · simp [runOp, SetLayerStore.add, h]
  · rcases s with ⟨_ | cur, sw⟩ <;> rfl

theorem SetLayerStore.runOps_special_switch (s : SetLayerStore) (ops : List SetOp) :
    (s.runOps ops).special_switch = s.special_switch := by
  induction ops generalizing s with
  | nil => rfl
  | cons op rest ih =>
    rw [runOps, List.foldl_cons]
    rw [show List.foldl SetLayerStore.runOp (s.runOp op) rest = (s.runOp op).runOps rest from rfl]
    rw [ih, runOp_special_switch]

theorem SetLayerStore.runSpecials_special_switch (s : SetLayerStore) (n : Nat) :
    (s.runSpecials n).special_switch = (s.special_switch).xor (n % 2 == 1) := by
  induction n generalizing s with
  | zero => simp [runSpecials]
  | succ n ih =>
    rw [runSpecials, ih]
    rcases Nat.mod_two_eq_zero_or_one n with h | h
    · have h1 : (n + 1) % 2 = 1 := by omega
      rcases s with ⟨l, sw⟩
      rcases sw <;> simp [special, h, h1]
    · have h1 : (n + 1) % 2 = 0 := by omega
      rcases s with ⟨l, sw⟩
      rcases sw <;> simp [special, h, h1]

theorem SetLayerStore.erase_layer (s : SetLayerStore) (l : Layer) :
    ((s.erase l).2).layer = none := by
  rcases s with ⟨_ | cur, sw⟩ <;> rfl

theorem SetLayerStore.erase_special_switch (s : SetLayerStore) (l : Layer) :
    ((s.erase l).2).special_switch = s.special_switch := by
  rcases s with ⟨_ | cur, sw⟩ <;> rfl

/-- C5 counterexample: the claim says `get_color` returns `start` unchanged
whenever no layer is stored, for every state of the invert flag; but in the
state reached from `init` by one `special()` call no layer is stored, the
flag is set, and `get_color (0,0,0) 0 0 0` returns `(255,255,255) ≠ (0,0,0)`. -/
theorem c5_counterexample :
    SetLayerStore.init.special.layer = none ∧
    SetLayerStore.init.special.get_color (0, 0, 0) 0 0 0 ≠ (0, 0, 0) := by
  exact ⟨rfl, by decide⟩

/-- C5 (amended): `get_color(start, t, x, y)` returns `start` unchanged when
no layer is stored and the invert flag is clear; when no layer is stored and
the flag is set it returns the channel-wise inverse of `start`; when a layer
is stored it returns `c = layer.apply(start, t, x, y)` if the flag is clear
and the channel-wise inverse of `c` if the flag is set. -/
theorem c5_set_get_color (s : SetLayerStore) (start : Color) (t x y : Nat) :
    (s.layer = none → s.special_switch = false → s.get_color start t x y = start) ∧
    (s.layer = none → s.special_switch = true →
      s.get_color start t x y = channelInverse start) ∧
    (∀ l, s.layer = some l → s.special_switch = false →
      s.get_color start t x y = l.apply start t x y) ∧
    (∀ l, s.layer = some l → s.special_switch = true →
      s.get_color start t x y = channelInverse (l.apply start t x y)) := by
  rcases s with ⟨ly, sw⟩
  refine ⟨?_, ?_, ?_, ?_⟩
  · rintro rfl rfl; rfl
  · rintro rfl rfl; rfl
  · rintro l rfl rfl; rfl
  · rintro l rfl rfl; rfl

/-- C5 witness: the amended theorem applied at the store holding the `invert`
layer with the flag set. -/
theorem c5_set_get_color_witness :
    SetLayerStore.get_color ⟨some invert, true⟩ (10, 20, 30) 0 0 0 =
      channelInverse (invert.apply (10, 20, 30) 0 0 0) :=
  (c5_set_get_color ⟨some invert, true⟩ (10, 20, 30) 0 0 0).2.2.2 invert rfl rfl

/-- C10: `add` and `erase` never change the invert flag set by `special()`.
After an odd number of `special()` calls on a fresh store, any sequence of
`add`/`erase` calls leaves the flag still set; in particular, after a further
`erase` (so that no layer is stored) `get_color` returns the channel-wise
inverse of `start` rather than `start`. -/
theorem c10_invert_flag_frame (n : Nat) (hn : n % 2 = 1) (ops : List SetOp)
    (l : Layer) (start : Color) (t x y : Nat) :
    ((SetLayerStore.init.runSpecials n).runOps ops).special_switch = true ∧
    ((((SetLayerStore.init.runSpecials n).runOps ops).erase l).2).get_color start t x y =
      channelInverse start := by
  have hsw : ((SetLayerStore.init.runSpecials n).runOps ops).special_switch = true := by
    rw [SetLayerStore.runOps_special_switch, SetLayerStore.runSpecials_special_switch]
    simp [SetLayerStore.init, hn]
  refine ⟨hsw, ?_⟩
  have hl := SetLayerStore.erase_layer ((SetLayerStore.init.runSpecials n).runOps ops) l
  have hsw2 := SetLayerStore.erase_special_switch
    ((SetLayerStore.init.runSpecials n).runOps ops) l
  rw [hsw] at hsw2
  generalize (((SetLayerStore.init.runSpecials n).runOps ops).erase l).2 = s at hl hsw2
  rcases s with ⟨ly, sw⟩
  simp only at hl hsw2
  subst hl hsw2
  rfl

/-- C10 witness: one `special()` (odd), then `add invert; erase invert`,
then a final `erase`: `get_color (0,0,0)` is `(255,255,255)`. -/
theorem c10_invert_flag_frame_witness :
    ((SetLayerStore.init.runSpecials 1).runOps
      [SetOp.add invert, SetOp.erase invert]).special_switch = true ∧
    ((((SetLayerStore.init.runSpecials 1).runOps
      [SetOp.add invert, SetOp.erase invert]).erase invert).2).get_color (0, 0, 0) 1 2 3 =
      channelInverse (0, 0, 0) :=
  c10_invert_flag_frame 1 rfl [SetOp.add invert, SetOp.erase invert] invert (0, 0, 0) 1 2 3

/-! ### Sorted list container (`data_structures/array_sorted_list.py`) -/

/-- `ListItem(value, key)` of the course sorted-list container. -/
structure ListItem (K : Type) (α : Type) where
  value : α
  key : K

instance : Inhabited Layer :=
  ⟨⟨0, "", (0, 0, 0), fun c _ _ _ => c⟩⟩

instance {K α : Type} [Inhabited K] [Inhabited α] : Inhabited (ListItem K α) :=
  ⟨⟨default, default⟩⟩

/-- Modelled from the spec: `ArraySortedList.add` of the missing
`data_structures/array_sorted_list.py` inserts an item so that entries stay
ordered by `key` ascending (spec §4.3: "insertion maintains sort order").
Here: insert after all strictly smaller keys; the position among equal keys
is not exercised by any claim. -/
def sortedAdd {K α : Type} [LinearOrder K] (item : ListItem K α) :
    List (ListItem K α) → List (ListItem K α)
  | [] => [item]
  | x :: xs => if item.key < x.key then item :: x :: xs else x :: sortedAdd item xs

theorem sortedAdd_perm {K α : Type} [LinearOrder K] (item : ListItem K α)
    (l : List (ListItem K α)) : (sortedAdd item l).Perm (item :: l) := by
  induction l with
  | nil => exact List.Perm.refl _
  | cons x xs ih =>
    rw [sortedAdd]
    split
    · exact List.Perm.refl _
    · exact (List.Perm.cons x ih).trans (List.Perm.swap item x xs)

theorem sortedAdd_sorted_le {K α : Type} [LinearOrder K] (item : ListItem K α)
    (l : List (ListItem K α)) (h : l.Pairwise (fun a b => a.key ≤ b.key)) :
    (sortedAdd item l).Pairwise (fun a b => a.key ≤ b.key) := by
  induction l with
  | nil => simp [sortedAdd]
  | cons x xs ih =>
    rw [sortedAdd]
    rcases List.pairwise_cons.mp h with ⟨hx, hxs⟩
    split
    case isTrue hlt =>
      refine List.Pairwise.cons ?_ (List.Pairwise.cons hx hxs)
      intro b hb
      rcases List.mem_cons.mp hb with rfl | hb
      · exact le_of_lt hlt
      · exact le_trans (le_of_lt hlt) (hx _ hb)
    case isFalse hlt =>
      refine List.Pairwise.cons ?_ (ih hxs)
      intro b hb
      rcases List.mem_cons.mp (((sortedAdd_perm item xs).mem_iff).mp hb) with rfl | hb
      · exact le_of_not_lt hlt
      · exact hx _ hb

theorem sortedAdd_sorted_lt {K α : Type} [LinearOrder K] (item : ListItem K α)
    (l : List (ListItem K α)) (h : l.Pairwise (fun a b => a.key < b.key))
    (hfresh : ∀ a ∈ l, item.key ≠ a.key) :
    (sortedAdd item l).Pairwise (fun a b => a.key < b.key) := by
  induction l with
  | nil => simp [sortedAdd]
  | cons x xs ih =>
    rw [sortedAdd]
    rcases List.pairwise_cons.mp h with ⟨hx, hxs⟩
    split
    case isTrue hlt =>
      refine List.Pairwise.cons ?_ (List.Pairwise.cons hx hxs)
      intro b hb
      rcases List.mem_cons.mp hb with rfl | hb
      · exact hlt
      · exact lt_trans hlt (hx _ hb)
    case isFalse hlt =>
      refine List.Pairwise.cons ?_ (ih hxs (fun a ha => hfresh a (List.mem_cons_of_mem x ha)))
      intro b hb
      rcases List.mem_cons.mp (((sortedAdd_perm item xs).mem_iff).mp hb) with rfl | hb
      · exact lt_of_le_of_ne (le_of_not_lt hlt) (Ne.symm (hfresh x (List.mem_cons_self x xs)))
      · exact hx _ hb

/-! ### SequenceLayerStore (`layer_store.py`, lines 305-477) -/

/-- State of `SequenceLayerStore`: the sorted list of `ListItem(layer,
layer.index)` entries, kept ordered by `key` (= layer index) ascending. -/
abbrev SequenceLayerStore := List (ListItem Nat Layer)

/-- `SequenceLayerStore.add`: scan for an entry with the same index (then no
change, report `false`); otherwise insert `ListItem(layer, layer.index)` into
the sorted list and report `true`. -/
def SequenceLayerStore.add (s : SequenceLayerStore) (l : Layer) :
    Bool × SequenceLayerStore :=
  if s.any (fun it => l.index == it.key) then (false, s)
  else (true, sortedAdd ⟨l, l.index⟩ s)

/-- Helper for `SequenceLayerStore.erase`: delete the first entry whose key
equals `idx`, reporting whether one was found. -/
def eraseKey (idx : Nat) : List (ListItem Nat Layer) → Bool × List (ListItem Nat Layer)
  | [] => (false, [])
  | x :: xs =>
    if x.key = idx then (true, xs)
    else
      let r := eraseKey idx xs
      (r.1, x :: r.2)

/-- `SequenceLayerStore.erase`: remove the entry whose key equals
`layer.index`, if present. -/
def SequenceLayerStore.erase (s : SequenceLayerStore) (l : Layer) :
    Bool × SequenceLayerStore :=
  eraseKey l.index s

/-- `SequenceLayerStore.get_color`: `start` if empty, else fold
`layer.apply` over the stored entries in list (= ascending index) order. -/
def SequenceLayerStore.get_color (s : SequenceLayerStore) (start : Color)
    (t x y : Nat) : Color :=
  match s with
  | [] => start
  | _ :: _ => s.foldl (fun acc it => it.value.apply acc t x y) start

/-- The scratch name-sorted view built by `SequenceLayerStore.special`:
each stored layer is re-inserted as `ListItem(layer, layer.name)` into a
fresh sorted list keyed by name.  The key is the name's character list
(`String.lt` is by definition lexicographic `List.lt` on `.data`, and the
list form is the one the kernel can evaluate). -/
def alphaBuild (s : SequenceLayerStore) : List (ListItem (List Char) Layer) :=
  s.foldl (fun acc it => sortedAdd ⟨it.value, it.value.name.data⟩ acc) []

/-- `SequenceLayerStore.special`: if non-empty, build the name-sorted view,
pick the item at index `n/2` for odd count `n` and `n/2 - 1` for even `n`,
and erase that layer through the normal erase path. -/
def SequenceLayerStore.special (s : SequenceLayerStore) : SequenceLayerStore :=
  if 0 < s.length then
    (SequenceLayerStore.erase s
      (if (alphaBuild s).length % 2 = 1 then
        (alphaBuild s).getD ((alphaBuild s).length / 2) default
      else
        (alphaBuild s).getD ((alphaBuild s).length / 2 - 1) default).value).2
  else s

/-- States of a `SequenceLayerStore` reachable from a fresh store by `add`,
`erase` and `special` calls. -/
inductive SeqReachable : SequenceLayerStore → Prop where
  | init : SeqReachable []
  | add (s : SequenceLayerStore) (l : Layer) :
      SeqReachable s → SeqReachable (SequenceLayerStore.add s l).2
  | erase (s : SequenceLayerStore) (l : Layer) :
      SeqReachable s → SeqReachable (SequenceLayerStore.erase s l).2
  | special (s : SequenceLayerStore) :
      SeqReachable s → SeqReachable (SequenceLayerStore.special s)

/-- Representation invariant of `SequenceLayerStore`: keys strictly ascending
(so also: at most one entry per index) and every entry keyed by its layer's
index. -/
def SeqWF (s : SequenceLayerStore) : Prop :=
  s.Pairwise (fun a b => a.key < b.key) ∧ ∀ it ∈ s, it.key = it.value.index

theorem eraseKey_sublist (idx : Nat) (l : List (ListItem Nat Layer)) :
    (eraseKey idx l).2.Sublist l := by
  induction l with
  | nil => exact List.Sublist.refl _
  | cons x xs ih =>
    rw [eraseKey]
    split
    · exact List.sublist_cons_self x xs
    · exact List.Sublist.cons₂ x ih

theorem seq_add_wf (s : SequenceLayerStore) (l : Layer) (h : SeqWF s) :
    SeqWF (SequenceLayerStore.add s l).2 := by
  rcases h with ⟨hpw, hkey⟩
  rw [SequenceLayerStore.add]
  split
  case isTrue => exact ⟨hpw, hkey⟩
  case isFalse hany =>
    have hfresh : ∀ a ∈ s, (⟨l, l.index⟩ : ListItem Nat Layer).key ≠ a.key := by
      intro a ha hcontra
      exact hany (List.any_eq_true.mpr ⟨a, ha, by simp [hcontra.symm]⟩)
    refine ⟨sortedAdd_sorted_lt _ _ hpw hfresh, ?_⟩
    intro it hit
    rcases List.mem_cons.mp (((sortedAdd_perm _ s).mem_iff).mp hit) with rfl | hit
    · rfl
    · exact hkey it hit

theorem seq_erase_wf (s : SequenceLayerStore) (l : Layer) (h : SeqWF s) :
    SeqWF (SequenceLayerStore.erase s l).2 := by
  rcases h with ⟨hpw, hkey⟩
  exact ⟨hpw.sublist (eraseKey_sublist l.index s),
    fun it hit => hkey it ((eraseKey_sublist l.index s).subset hit)⟩

theorem seq_special_wf (s : SequenceLayerStore) (h : SeqWF s) :
    SeqWF (SequenceLayerStore.special s) := by
  rw [SequenceLayerStore.special]
  split
  · exact seq_erase_wf s _ h
  · exact h

theorem seqReachable_wf (s : SequenceLayerStore) (h : SeqReachable s) : SeqWF s := by
  induction h with
  | init => exact ⟨List.Pairwise.nil, by intro it hit; cases hit⟩
  | add s l _ ih => exact seq_add_wf s l ih
  | erase s l _ ih => exact seq_erase_wf s l ih
  | special s _ ih => exact seq_special_wf s ih

theorem seq_countP_eq_one (s : SequenceLayerStore)
    (hpw : s.Pairwise (fun a b => a.key < b.key))
    (it : ListItem Nat Layer) (hit : it ∈ s) :
    s.countP (fun a => a.key == it.key) = 1 := by
  induction s with
  | nil => cases hit
  | cons x xs ih =>
    rcases List.pairwise_cons.mp hpw with ⟨hx, hxs⟩
    rw [List.countP_cons]
    rcases List.mem_cons.mp hit with rfl | hit
    · have h0 : xs.countP (fun a => a.key == it.key) = 0 :=
        List.countP_eq_zero.mpr (fun a ha => by simp [Nat.ne_of_gt (hx a ha)])
      simp [h0]
    · have hne : ¬(x.key == it.key) = true := by simp [Nat.ne_of_lt (hx it hit)]
      simp [ih hxs hit, hne]

theorem seq_add_duplicate (s : SequenceLayerStore) (l : Layer)
    (hdup : ∃ it ∈ s, it.key = l.index) :
    (SequenceLayerStore.add s l).1 = false ∧ (SequenceLayerStore.add s l).2 = s := by
  rcases hdup with ⟨it, hit, hkey⟩
  have hany : s.any (fun it => l.index == it.key) = true :=
    List.any_eq_true.mpr ⟨it, hit, by simp [hkey]⟩
  rw [SequenceLayerStore.add, if_pos hany]
  exact ⟨rfl, rfl⟩

theorem alphaBuild_perm_general (s : SequenceLayerStore)
    (acc : List (ListItem (List Char) Layer)) :
    (s.foldl (fun a it => sortedAdd ⟨it.value, it.value.name.data⟩ a) acc).Perm
      ((s.map (fun it => (⟨it.value, it.value.name.data⟩ : ListItem (List Char) Layer))) ++ acc) := by
  induction s generalizing acc with
  | nil => exact List.Perm.refl _
  | cons x xs ih =>
    rw [List.foldl_cons, List.map_cons]
    refine (ih _).trans ?_
    refine (List.Perm.append_left _ (sortedAdd_perm _ _)).trans ?_
    exact List.perm_middle

theorem alphaBuild_perm (s : SequenceLayerStore) :
    (alphaBuild s).Perm
      (s.map (fun it => (⟨it.value, it.value.name.data⟩ : ListItem (List Char) Layer))) := by
  have h := alphaBuild_perm_general s []
  rw [List.append_nil] at h
  exact h

theorem alphaBuild_sorted_general (s : SequenceLayerStore)
    (acc : List (ListItem (List Char) Layer))
    (hacc : acc.Pairwise (fun a b => a.key ≤ b.key)) :
    (s.foldl (fun a it => sortedAdd ⟨it.value, it.value.name.data⟩ a) acc).Pairwise
      (fun a b => a.key ≤ b.key) := by
  induction s generalizing acc with
  | nil => exact hacc
  | cons x xs ih => exact ih _ (sortedAdd_sorted_le _ _ hacc)

theorem alphaBuild_sorted (s : SequenceLayerStore) :
    (alphaBuild s).Pairwise (fun a b => a.key ≤ b.key) :=
  alphaBuild_sorted_general s [] List.Pairwise.nil

theorem alphaBuild_key (s : SequenceLayerStore) (p : ListItem (List Char) Layer)
    (hp : p ∈ alphaBuild s) : p.key = p.value.name.data := by
  have hmem := (alphaBuild_perm s).mem_iff.mp hp
  rcases List.mem_map.mp hmem with ⟨it, -, rfl⟩
  rfl

theorem alphaBuild_length (s : SequenceLayerStore) :
    (alphaBuild s).length = s.length := by
  rw [(alphaBuild_perm s).length_eq, List.length_map]

theorem seq_special_eq_erase (s : SequenceLayerStore) (hne : 0 < s.length) :
    SequenceLayerStore.special s =
      (SequenceLayerStore.erase s
        (((alphaBuild s).getD ((s.length - 1) / 2) default).value)).2 := by
  rw [SequenceLayerStore.special, if_pos hne]
  have hlen := alphaBuild_length s
  rcases Nat.mod_two_eq_zero_or_one (alphaBuild s).length with h | h
  · have hidx : (alphaBuild s).length / 2 - 1 = (s.length - 1) / 2 := by omega
    rw [if_neg (by omega), hidx]
  · have hidx : (alphaBuild s).length / 2 = (s.length - 1) / 2 := by omega
    rw [if_pos h, hidx]

theorem eraseKey_of_mem (s : SequenceLayerStore)
    (hpw : s.Pairwise (fun a b => a.key < b.key)) (it : ListItem Nat Layer)
    (hit : it ∈ s) :
    ∃ l₁ l₂, s = l₁ ++ it :: l₂ ∧ eraseKey it.key s = (true, l₁ ++ l₂) := by
  induction s with
  | nil => cases hit
  | cons x xs ih =>
    rcases List.pairwise_cons.mp hpw with ⟨hx, hxs⟩
    by_cases hk : x.key = it.key
    · have hx_eq : it = x := by
        rcases List.mem_cons.mp hit with rfl | hmem
        · rfl
        · exact absurd hk (Nat.ne_of_lt (hx it hmem))
      subst hx_eq
      exact ⟨[], xs, rfl, by rw [eraseKey, if_pos rfl]; rfl⟩
    · have hmem : it ∈ xs := by
        rcases List.mem_cons.mp hit with rfl | hmem
        · exact absurd rfl hk
        · exact hmem
      rcases ih hxs hmem with ⟨l₁, l₂, hs, he⟩
      refine ⟨x :: l₁, l₂, by rw [hs]; rfl, ?_⟩
      rw [eraseKey, if_neg hk, he]
      rfl

/-- A layer named `"b"` at index 0 (identity transform). -/
def layerB : Layer := ⟨0, "b", (1, 2, 3), fun c _ _ _ => c⟩

/-- A layer named `"a"` at index 1 (identity transform). -/
def layerA : Layer := ⟨1, "a", (4, 5, 6), fun c _ _ _ => c⟩

/-- A layer named `"d"` at index 2 (identity transform). -/
def layerD : Layer := ⟨2, "d", (7, 8, 9), fun c _ _ _ => c⟩

/-- A layer named `"c"` at index 3 (identity transform). -/
def layerC : Layer := ⟨3, "c", (10, 11, 12), fun c _ _ _ => c⟩

/-- The store of the spec's tie-break example: four layers named
`["b","a","d","c"]` added at four distinct indices. -/
def seqExample : SequenceLayerStore :=
  (SequenceLayerStore.add
    (SequenceLayerStore.add
      (SequenceLayerStore.add
        (SequenceLayerStore.add [] layerB).2 layerA).2 layerD).2 layerC).2

theorem seqExample_reachable : SeqReachable seqExample :=
  SeqReachable.add _ layerC (SeqReachable.add _ layerD
    (SeqReachable.add _ layerA (SeqReachable.add _ layerB SeqReachable.init)))

/-- C1: on a reachable non-empty Sequential store, `special()` removes
exactly one layer — the one at position `⌊(n-1)/2⌋` of the name-sorted view
(the view is proved to be a name-sorted permutation of the stored layers);
the rest keep their relative (ascending-index) order, the ascending-key
invariant holds again afterwards, `special()` on an empty store is a no-op,
and on the four layers named `["b","a","d","c"]` the layer named `"b"` is
the one erased. -/
theorem c1_sequence_special (s : SequenceLayerStore) (h : SeqReachable s)
    (hne : s ≠ []) :
    SequenceLayerStore.special [] = [] ∧
    ((alphaBuild s).map (fun p => p.value)).Perm (s.map (fun p => p.value)) ∧
    (alphaBuild s).Pairwise (fun p q => p.value.name.data ≤ q.value.name.data) ∧
    (∃ it l₁ l₂, s = l₁ ++ it :: l₂ ∧
        it.value = ((alphaBuild s).getD ((s.length - 1) / 2) default).value ∧
        SequenceLayerStore.special s = l₁ ++ l₂) ∧
    (SequenceLayerStore.special s).Pairwise (fun a b => a.key < b.key) ∧
    (SequenceLayerStore.special seqExample).map (fun p => p.value.name) =
      ["a", "d", "c"] := by
  have hwf := seqReachable_wf s h
  have hlen0 : 0 < s.length := List.length_pos.mpr hne
  have hperm : ((alphaBuild s).map (fun p => p.value)).Perm
      (s.map (fun p => p.value)) := by
    have h1 := (alphaBuild_perm s).map (fun p => p.value)
    rw [List.map_map] at h1
    exact h1
  refine ⟨rfl, hperm, ?_, ?_, (seq_special_wf s hwf).1, by decide⟩
  · refine (alphaBuild_sorted s).imp_of_mem ?_
    intro a b ha hb hab
    rw [alphaBuild_key s a ha, alphaBuild_key s b hb] at hab
    exact hab
  · have hposlt : (s.length - 1) / 2 < (alphaBuild s).length := by
      rw [alphaBuild_length]; omega
    have hmem : (alphaBuild s).getD ((s.length - 1) / 2) default ∈ alphaBuild s := by
      rw [List.getD_eq_getElem (alphaBuild s) default hposlt]
      exact List.getElem_mem hposlt
    have hval : ((alphaBuild s).getD ((s.length - 1) / 2) default).value ∈
        s.map (fun p => p.value) :=
      hperm.mem_iff.mp (List.mem_map_of_mem (fun p => p.value) hmem)
    rcases List.mem_map.mp hval with ⟨it, hit, hitval⟩
    have hkey : it.key = ((alphaBuild s).getD ((s.length - 1) / 2) default).value.index := by
      rw [hwf.2 it hit, hitval]
    rcases eraseKey_of_mem s hwf.1 it hit with ⟨l₁, l₂, hsplit, herase⟩
    refine ⟨it, l₁, l₂, hsplit, hitval, ?_⟩
    rw [seq_special_eq_erase s hlen0, SequenceLayerStore.erase, ← hkey, herase]

/-- C1 witness: the theorem applied to the reachable four-layer store
`["b","a","d","c"]` (added at indices 0,1,2,3). -/
theorem c1_sequence_special_witness :
    SequenceLayerStore.special [] = [] ∧
    ((alphaBuild seqExample).map (fun p => p.value)).Perm
      (seqExample.map (fun p => p.value)) ∧
    (alphaBuild seqExample).Pairwise (fun p q => p.value.name.data ≤ q.value.name.data) ∧
    (∃ it l₁ l₂, seqExample = l₁ ++ it :: l₂ ∧
        it.value =
          ((alphaBuild seqExample).getD ((seqExample.length - 1) / 2) default).value ∧
        SequenceLayerStore.special seqExample = l₁ ++ l₂) ∧
    (SequenceLayerStore.special seqExample).Pairwise (fun a b => a.key < b.key) ∧
    (SequenceLayerStore.special seqExample).map (fun p => p.value.name) =
      ["a", "d", "c"] :=
  c1_sequence_special seqExample seqExample_reachable
    (fun hc => List.cons_ne_nil _ _ hc)

/-- C7: on every reachable Sequential store the entries are strictly
ascending by index (so at most one layer per distinct index); `add(layer)`
with an already-stored index reports changed=false and leaves the store
unchanged with exactly one entry at that index; and `get_color` folds the
stored layers in that ascending-index list order. -/
theorem c7_sequence_invariants (s : SequenceLayerStore) (h : SeqReachable s)
    (l : Layer) (start : Color) (t x y : Nat) :
    s.Pairwise (fun a b => a.key < b.key) ∧
    ((∃ it ∈ s, it.key = l.index) →
      (SequenceLayerStore.add s l).1 = false ∧
      (SequenceLayerStore.add s l).2 = s ∧
      s.countP (fun a => a.key == l.index) = 1) ∧
    SequenceLayerStore.get_color s start t x y =
      s.foldl (fun acc it => it.value.apply acc t x y) start := by
  have hwf := seqReachable_wf s h
  refine ⟨hwf.1, ?_, ?_⟩
  · rintro ⟨it, hit, hkey⟩
    refine ⟨(seq_add_duplicate s l ⟨it, hit, hkey⟩).1,
      (seq_add_duplicate s l ⟨it, hit, hkey⟩).2, ?_⟩
    have hcount := seq_countP_eq_one s hwf.1 it hit
    rw [hkey] at hcount
    exact hcount
  · cases s with
    | nil => rfl
    | cons a as => rfl

/-- C7 witness: the theorem applied to the reachable four-layer store, with
a duplicate add of a second layer at index 1. -/
theorem c7_sequence_invariants_witness :
    seqExample.Pairwise (fun a b => a.key < b.key) ∧
    ((∃ it ∈ seqExample, it.key = layerA.index) →
      (SequenceLayerStore.add seqExample layerA).1 = false ∧
      (SequenceLayerStore.add seqExample layerA).2 = seqExample ∧
      seqExample.countP (fun a => a.key == layerA.index) = 1) ∧
    SequenceLayerStore.get_color seqExample (5, 5, 5) 0 0 0 =
      seqExample.foldl (fun acc it => it.value.apply acc 0 0 0) (5, 5, 5) :=
  c7_sequence_invariants seqExample seqExample_reachable layerA (5, 5, 5) 0 0 0

/-! ### PaintAction and ArrayStack (`action.py`, `data_structures/stack_adt.py`) -/

/-- Modelled from the spec: a `PaintAction` of the missing `action.py` is an
immutable invertible command; only its forward effect `redo_apply` and
inverse effect `undo_apply` on a grid (abstracted as a type `γ`) matter to
the trackers. -/
structure PaintAction (γ : Type) where
  redo_apply : γ → γ
  undo_apply : γ → γ

/-- Modelled from the spec: the bounded LIFO stack of the missing
`data_structures/stack_adt.py`; `items` head is the top of the stack. -/
structure ArrayStack (α : Type) where
  capacity : Nat
  items : List α

/-- A fresh `ArrayStack(cap)`. -/
def ArrayStack.empty (α : Type) (cap : Nat) : ArrayStack α := ⟨cap, []⟩

/-- `len(stack)`. -/
def ArrayStack.length {α : Type} (st : ArrayStack α) : Nat := st.items.length

/-- `ArrayStack.is_full`. -/
def ArrayStack.is_full {α : Type} (st : ArrayStack α) : Bool :=
  st.capacity ≤ st.items.length

/-- `ArrayStack.is_empty`. -/
def ArrayStack.is_empty {α : Type} (st : ArrayStack α) : Bool := st.items.isEmpty

/-- Unchecked push (used where the Python code has itself already checked
`is_full`, so the container's own capacity check cannot fire). -/
def ArrayStack.pushU {α : Type} (st : ArrayStack α) (x : α) : ArrayStack α :=
  ⟨st.capacity, x :: st.items⟩

/-- `ArrayStack.push`: the course container raises when full, modelled as
`none`. -/
def ArrayStack.push {α : Type} (st : ArrayStack α) (x : α) : Option (ArrayStack α) :=
  if st.is_full then none else some (st.pushU x)

/-- `ArrayStack.pop`: the course container raises when empty (`none`). -/
def ArrayStack.pop {α : Type} (st : ArrayStack α) : Option (α × ArrayStack α) :=
  match st.items with
  | [] => none
  | x :: xs => some (x, ⟨st.capacity, xs⟩)

/-! ### UndoTracker (`undo.py`) -/

/-- State of `UndoTracker`: the undo and redo stacks (both created with
capacity 10000). -/
structure UndoTracker (γ : Type) where
  Undo_list : ArrayStack (PaintAction γ)
  Redo_list : ArrayStack (PaintAction γ)

/-- `UndoTracker.__init__`. -/
def UndoTracker.init (γ : Type) : UndoTracker γ :=
  ⟨ArrayStack.empty _ 10000, ArrayStack.empty _ 10000⟩

/-- `UndoTracker.add_action`: first reset the redo stack if it is non-empty,
then push unless the undo stack is full (then report `false` and drop). -/
def UndoTracker.add_action {γ : Type} (tr : UndoTracker γ) (a : PaintAction γ) :
    Bool × UndoTracker γ :=
  let tr1 := if 0 < tr.Redo_list.length
    then { tr with Redo_list := ArrayStack.empty _ 10000 } else tr
  if tr1.Undo_list.is_full then (false, tr1)
  else (true, { tr1 with Undo_list := tr1.Undo_list.pushU a })

/-- `UndoTracker.undo`: `none` inside the option result is the "nothing to
undo" sentinel (Python `None`); the outer `none` models an exception from an
unguarded container call (the source pushes onto `Redo_list` without a
capacity check). -/
def UndoTracker.undo {γ : Type} (tr : UndoTracker γ) (g : γ) :
    Option (Option (PaintAction γ) × UndoTracker γ × γ) :=
  if tr.Undo_list.is_empty then some (none, tr, g)
  else
    match tr.Undo_list.pop with
    | none => none
    | some (item, undo') =>
      match tr.Redo_list.push item with
      | none => none
      | some redo' => some (some item, ⟨undo', redo'⟩, item.undo_apply g)

/-- `UndoTracker.redo`: symmetric to `undo`. -/
def UndoTracker.redo {γ : Type} (tr : UndoTracker γ) (g : γ) :
    Option (Option (PaintAction γ) × UndoTracker γ × γ) :=
  if tr.Redo_list.is_empty then some (none, tr, g)
  else
    match tr.Redo_list.pop with
    | none => none
    | some (item, redo') =>
      match tr.Undo_list.push item with
      | none => none
      | some undo' => some (some item, ⟨undo', redo'⟩, item.redo_apply g)

/-- Tracker states reachable from a fresh `UndoTracker` by `add_action`,
`undo` and `redo` calls. -/
inductive UndoReachable {γ : Type} : UndoTracker γ → Prop where
  | init : UndoReachable (UndoTracker.init γ)
  | add_action (tr : UndoTracker γ) (a : PaintAction γ) :
      UndoReachable tr → UndoReachable (tr.add_action a).2
  | undo (tr : UndoTracker γ) (g : γ) (r : Option (PaintAction γ))
      (tr' : UndoTracker γ) (g' : γ) :
      UndoReachable tr → tr.undo g = some (r, tr', g') → UndoReachable tr'
  | redo (tr : UndoTracker γ) (g : γ) (r : Option (PaintAction γ))
      (tr' : UndoTracker γ) (g' : γ) :
      UndoReachable tr → tr.redo g = some (r, tr', g') → UndoReachable tr'

/-- Invariant of reachable tracker states: both stacks have capacity 10000
and together hold at most 10000 actions (each action lives on at most one
stack). -/
def UndoInv {γ : Type} (tr : UndoTracker γ) : Prop :=
  tr.Undo_list.capacity = 10000 ∧ tr.Redo_list.capacity = 10000 ∧
    tr.Undo_list.length + tr.Redo_list.length ≤ 10000

theorem ArrayStack.pop_eq_some {α : Type} {st st' : ArrayStack α} {x : α}
    (h : st.pop = some (x, st')) :
    st'.capacity = st.capacity ∧ st.items = x :: st'.items := by
  rcases st with ⟨cap, items⟩
  cases items with
  | nil => cases h
  | cons y ys =>
    rw [ArrayStack.pop] at h
    rcases Prod.mk.injEq .. ▸ Option.some.inj h with ⟨rfl, rfl⟩
    exact ⟨rfl, rfl⟩

theorem ArrayStack.push_eq_some {α : Type} {st st' : ArrayStack α} {x : α}
    (h : st.push x = some st') :
    st'.capacity = st.capacity ∧ st'.items = x :: st.items ∧
      st.items.length < st.capacity := by
  rw [ArrayStack.push] at h
  by_cases hf : st.is_full = true
  · rw [if_pos hf] at h; cases h
  · rw [if_neg hf] at h
    have hlt : st.items.length < st.capacity := by
      simp [ArrayStack.is_full] at hf
      exact hf
    rcases Option.some.inj h with rfl
    exact ⟨rfl, rfl, hlt⟩

theorem ArrayStack.push_of_room {α : Type} {st : ArrayStack α} (x : α)
    (h : st.items.length < st.capacity) : st.push x = some (st.pushU x) := by
  rw [ArrayStack.push, if_neg]
  simp [ArrayStack.is_full]
  omega

theorem UndoTracker.undo_of_empty {γ : Type} (tr : UndoTracker γ) (g : γ)
    (h : tr.Undo_list.items = []) : tr.undo g = some (none, tr, g) := by
  rw [UndoTracker.undo, if_pos (by simp [ArrayStack.is_empty, h])]

theorem UndoTracker.undo_of_pop {γ : Type} (tr : UndoTracker γ) (g : γ)
    (a : PaintAction γ) (rest : List (PaintAction γ))
    (h : tr.Undo_list.items = a :: rest)
    (hroom : tr.Redo_list.items.length < tr.Redo_list.capacity) :
    tr.undo g = some (some a,
      ⟨⟨tr.Undo_list.capacity, rest⟩, tr.Redo_list.pushU a⟩, a.undo_apply g) := by
  rw [UndoTracker.undo, if_neg (by simp [ArrayStack.is_empty, h])]
  have hpop : tr.Undo_list.pop = some (a, ⟨tr.Undo_list.capacity, rest⟩) := by
    rw [ArrayStack.pop, h]
  rw [hpop]
  dsimp only
  rw [ArrayStack.push_of_room a hroom]

theorem UndoTracker.redo_of_empty {γ : Type} (tr : UndoTracker γ) (g : γ)
    (h : tr.Redo_list.items = []) : tr.redo g = some (none, tr, g) := by
  rw [UndoTracker.redo, if_pos (by simp [ArrayStack.is_empty, h])]

theorem UndoTracker.redo_of_pop {γ : Type} (tr : UndoTracker γ) (g : γ)
    (a : PaintAction γ) (rest : List (PaintAction γ))
    (h : tr.Redo_list.items = a :: rest)
    (hroom : tr.Undo_list.items.length < tr.Undo_list.capacity) :
    tr.redo g = some (some a,
      ⟨tr.Undo_list.pushU a, ⟨tr.Redo_list.capacity, rest⟩⟩, a.redo_apply g) := by
  rw [UndoTracker.redo, if_neg (by simp [ArrayStack.is_empty, h])]
  have hpop : tr.Redo_list.pop = some (a, ⟨tr.Redo_list.capacity, rest⟩) := by
    rw [ArrayStack.pop, h]
  rw [hpop]
  dsimp only
  rw [ArrayStack.push_of_room a hroom]

theorem undoReachable_inv {γ : Type} (tr : UndoTracker γ) (h : UndoReachable tr) :
    UndoInv tr := by
  induction h with
  | init =>
    exact ⟨rfl, rfl, by simp [UndoTracker.init, ArrayStack.empty, ArrayStack.length]⟩
  | add_action tr a _ ih =>
    rcases ih with ⟨hu, hr, hlen⟩
    rw [UndoTracker.add_action]
    by_cases hred : 0 < tr.Redo_list.length
    · rw [if_pos hred]
      by_cases hfull : ({ tr with Redo_list := ArrayStack.empty (PaintAction γ) 10000 } :
          UndoTracker γ).Undo_list.is_full = true
      · rw [if_pos hfull]
        exact ⟨hu, rfl, by
          simp only [ArrayStack.length, ArrayStack.empty, List.length_nil] at hlen ⊢
          omega⟩
      · rw [if_neg hfull]
        simp only [ArrayStack.is_full, decide_eq_true_eq, not_le] at hfull
        rw [hu] at hfull
        exact ⟨hu, rfl, by
          simp only [ArrayStack.length, ArrayStack.empty, ArrayStack.pushU,
            List.length_cons, List.length_nil]
          omega⟩
    · rw [if_neg hred]
      have hr0 : tr.Redo_list.length = 0 := by omega
      by_cases hfull : tr.Undo_list.is_full = true
      · rw [if_pos hfull]
        exact ⟨hu, hr, hlen⟩
      · rw [if_neg hfull]
        simp only [ArrayStack.is_full, decide_eq_true_eq, not_le] at hfull
        rw [hu] at hfull
        refine ⟨hu, hr, ?_⟩
        simp only [ArrayStack.length, ArrayStack.pushU, List.length_cons]
        simp only [ArrayStack.length] at hfull hr0 ⊢
        omega
  | undo tr g r tr' g' _ heq ih =>
    rcases ih with ⟨hu, hr, hlen⟩
    cases hU : tr.Undo_list.items with
    | nil =>
      rw [UndoTracker.undo_of_empty tr g hU] at heq
      simp only [Option.some.injEq, Prod.mk.injEq] at heq
      rcases heq with ⟨-, htr, -⟩
      rw [← htr]
      exact ⟨hu, hr, hlen⟩
    | cons a rest =>
      have hroom : tr.Redo_list.items.length < tr.Redo_list.capacity := by
        simp only [ArrayStack.length, hU, List.length_cons] at hlen
        omega
      rw [UndoTracker.undo_of_pop tr g a rest hU hroom] at heq
      simp only [Option.some.injEq, Prod.mk.injEq] at heq
      rcases heq with ⟨-, htr, -⟩
      rw [← htr]
      refine ⟨hu, hr, ?_⟩
      simp only [ArrayStack.length, ArrayStack.pushU, List.length_cons]
      simp only [ArrayStack.length, hU, List.length_cons] at hlen
      omega
  | redo tr g r tr' g' _ heq ih =>
    rcases ih with ⟨hu, hr, hlen⟩
    cases hR : tr.Redo_list.items with
    | nil =>
      rw [UndoTracker.redo_of_empty tr g hR] at heq
      simp only [Option.some.injEq, Prod.mk.injEq] at heq
      rcases heq with ⟨-, htr, -⟩
      rw [← htr]
      exact ⟨hu, hr, hlen⟩
    | cons a rest =>
      have hroom : tr.Undo_list.items.length < tr.Undo_list.capacity := by
        simp only [ArrayStack.length, hR, List.length_cons] at hlen
        omega
      rw [UndoTracker.redo_of_pop tr g a rest hR hroom] at heq
      simp only [Option.some.injEq, Prod.mk.injEq] at heq
      rcases heq with ⟨-, htr, -⟩
      rw [← htr]
      refine ⟨hu, hr, ?_⟩
      simp only [ArrayStack.length, ArrayStack.pushU, List.length_cons]
      simp only [ArrayStack.length, hR, List.length_cons] at hlen
      omega

theorem UndoTracker.add_action_redo_empty {γ : Type} (tr : UndoTracker γ)
    (a : PaintAction γ) : (tr.add_action a).2.Redo_list.items = [] := by
  rw [UndoTracker.add_action]
  by_cases hred : 0 < tr.Redo_list.length
  · rw [if_pos hred]
    split <;> rfl
  · rw [if_neg hred]
    have hnil : tr.Redo_list.items = [] := by
      simp only [ArrayStack.length] at hred
      exact List.length_eq_zero.mp (by omega)
    split
    · exact hnil
    · exact hnil

/-- A concrete action on `Nat` grids, for witnesses: forward adds one,
inverse subtracts one. -/
def incAction : PaintAction Nat := ⟨fun n => n + 1, fun n => n - 1⟩

/-- C3: `add_action` always leaves the redo stack empty (clearing it first,
and not restoring it even when the push is dropped); it pushes the action
onto the undo stack and reports `true` unless the undo stack already holds
10000 actions, in which case it reports `false` and the undo stack is
unchanged.  Consequently after `add_action A; undo; add_action B` a `redo`
reports the "nothing to redo" sentinel and leaves the grid unchanged. -/
theorem c3_add_action (γ : Type) (tr : UndoTracker γ) (h : UndoReachable tr)
    (a A B : PaintAction γ) (g : γ) :
    (tr.add_action a).2.Redo_list.items = [] ∧
    (tr.Undo_list.items.length = 10000 →
      (tr.add_action a).1 = false ∧ (tr.add_action a).2.Undo_list = tr.Undo_list) ∧
    (tr.Undo_list.items.length < 10000 →
      (tr.add_action a).1 = true ∧
      (tr.add_action a).2.Undo_list.items = a :: tr.Undo_list.items) ∧
    ((UndoTracker.init γ).add_action A).2.undo g =
      some (some A, ⟨⟨10000, []⟩, ⟨10000, [A]⟩⟩, A.undo_apply g) ∧
    ((⟨⟨10000, []⟩, ⟨10000, [A]⟩⟩ : UndoTracker γ).add_action B).2.redo (A.undo_apply g) =
      some (none, ((⟨⟨10000, []⟩, ⟨10000, [A]⟩⟩ : UndoTracker γ).add_action B).2,
        A.undo_apply g) := by
  rcases undoReachable_inv tr h with ⟨hu, hr, hlen⟩
  refine ⟨UndoTracker.add_action_redo_empty tr a, ?_, ?_, rfl, rfl⟩
  · intro hfull
    have hisfull : ∀ tr1 : UndoTracker γ, tr1.Undo_list = tr.Undo_list →
        tr1.Undo_list.is_full = true := by
      intro tr1 h1
      simp only [ArrayStack.is_full, h1, hfull, hu, decide_eq_true_eq]
      omega
    rw [UndoTracker.add_action]
    by_cases hred : 0 < tr.Redo_list.length
    · rw [if_pos hred, if_pos (hisfull _ rfl)]
      exact ⟨rfl, rfl⟩
    · rw [if_neg hred, if_pos (hisfull _ rfl)]
      exact ⟨rfl, rfl⟩
  · intro hlt
    have hnotfull : ∀ tr1 : UndoTracker γ, tr1.Undo_list = tr.Undo_list →
        ¬tr1.Undo_list.is_full = true := by
      intro tr1 h1
      simp only [ArrayStack.is_full, h1, hu, decide_eq_true_eq]
      omega
    rw [UndoTracker.add_action]
    by_cases hred : 0 < tr.Redo_list.length
    · rw [if_pos hred, if_neg (hnotfull _ rfl)]
      exact ⟨rfl, rfl⟩
    · rw [if_neg hred, if_neg (hnotfull _ rfl)]
      exact ⟨rfl, rfl⟩

/-- C3 witness: the theorem applied at the fresh tracker with concrete
actions and grid `5`. -/
theorem c3_add_action_witness :
    ((UndoTracker.init Nat).add_action incAction).2.Redo_list.items = [] ∧
    ((UndoTracker.init Nat).Undo_list.items.length = 10000 →
      ((UndoTracker.init Nat).add_action incAction).1 = false ∧
      ((UndoTracker.init Nat).add_action incAction).2.Undo_list =
        (UndoTracker.init Nat).Undo_list) ∧
    ((UndoTracker.init Nat).Undo_list.items.length < 10000 →
      ((UndoTracker.init Nat).add_action incAction).1 = true ∧
      ((UndoTracker.init Nat).add_action incAction).2.Undo_list.items =
        incAction :: (UndoTracker.init Nat).Undo_list.items) ∧
    ((UndoTracker.init Nat).add_action incAction).2.undo 5 =
      some (some incAction, ⟨⟨10000, []⟩, ⟨10000, [incAction]⟩⟩,
        incAction.undo_apply 5) ∧
    ((⟨⟨10000, []⟩, ⟨10000, [incAction]⟩⟩ : UndoTracker Nat).add_action
        incAction).2.redo (incAction.undo_apply 5) =
      some (none, ((⟨⟨10000, []⟩, ⟨10000, [incAction]⟩⟩ :
          UndoTracker Nat).add_action incAction).2,
        incAction.undo_apply 5) :=
  c3_add_action Nat (UndoTracker.init Nat) UndoReachable.init
    incAction incAction incAction 5

/-- C4: on every reachable tracker, `undo(grid)` on an empty undo stack
returns the "nothing to undo" sentinel with tracker and grid unchanged;
otherwise it pops the most recent action `a`, applies `a.undo_apply` to the
grid, pushes `a` onto the redo stack and returns `a`.  `redo(grid)` is
symmetric with `a.redo_apply` and the stacks swapped (and, on reachable
states, the unguarded pushes never overflow, so neither call raises). -/
theorem c4_undo_redo (γ : Type) (tr : UndoTracker γ) (h : UndoReachable tr) (g : γ) :
    (tr.Undo_list.items = [] → tr.undo g = some (none, tr, g)) ∧
    (∀ a rest, tr.Undo_list.items = a :: rest →
      tr.undo g = some (some a,
        ⟨⟨tr.Undo_list.capacity, rest⟩, tr.Redo_list.pushU a⟩, a.undo_apply g)) ∧
    (tr.Redo_list.items = [] → tr.redo g = some (none, tr, g)) ∧
    (∀ a rest, tr.Redo_list.items = a :: rest →
      tr.redo g = some (some a,
        ⟨tr.Undo_list.pushU a, ⟨tr.Redo_list.capacity, rest⟩⟩, a.redo_apply g)) := by
  rcases undoReachable_inv tr h with ⟨hu, hr, hlen⟩
  refine ⟨fun hU => UndoTracker.undo_of_empty tr g hU, ?_,
    fun hR => UndoTracker.redo_of_empty tr g hR, ?_⟩
  · intro a rest hU
    apply UndoTracker.undo_of_pop tr g a rest hU
    simp only [ArrayStack.length, hU, List.length_cons] at hlen
    omega
  · intro a rest hR
    apply UndoTracker.redo_of_pop tr g a rest hR
    simp only [ArrayStack.length, hR, List.length_cons] at hlen
    omega

/-- C4 witness: the theorem applied at the reachable tracker holding one
recorded action, with grid `5`. -/
theorem c4_undo_redo_witness :
    ((((UndoTracker.init Nat).add_action incAction).2.Undo_list.items = [] →
      ((UndoTracker.init Nat).add_action incAction).2.undo 5 =
        some (none, ((UndoTracker.init Nat).add_action incAction).2, 5)) ∧
    (∀ a rest,
      ((UndoTracker.init Nat).add_action incAction).2.Undo_list.items = a :: rest →
      ((UndoTracker.init Nat).add_action incAction).2.undo 5 = some (some a,
        ⟨⟨((UndoTracker.init Nat).add_action incAction).2.Undo_list.capacity, rest⟩,
          ((UndoTracker.init Nat).add_action incAction).2.Redo_list.pushU a⟩,
        a.undo_apply 5)) ∧
    (((UndoTracker.init Nat).add_action incAction).2.Redo_list.items = [] →
      ((UndoTracker.init Nat).add_action incAction).2.redo 5 =
        some (none, ((UndoTracker.init Nat).add_action incAction).2, 5)) ∧
    (∀ a rest,
      ((UndoTracker.init Nat).add_action incAction).2.Redo_list.items = a :: rest →
      ((UndoTracker.init Nat).add_action incAction).2.redo 5 = some (some a,
        ⟨((UndoTracker.init Nat).add_action incAction).2.Undo_list.pushU a,
          ⟨((UndoTracker.init Nat).add_action incAction).2.Redo_list.capacity, rest⟩⟩,
        a.redo_apply 5))) :=
  c4_undo_redo Nat ((UndoTracker.init Nat).add_action incAction).2
    (UndoReachable.add_action (UndoTracker.init Nat) incAction UndoReachable.init) 5

/-! ### CircularQueue (`data_structures/queue_adt.py`) -/

/-- Modelled from the spec: the bounded FIFO of the missing
`data_structures/queue_adt.py` is a fixed-capacity ring buffer (spec §9)
with `front`/`rear` indices, a `length` count, and a backing array.  The
array maps a slot index to the value last written there (`none` = never
written); a read that yields `none` (an unwritten or out-of-range slot)
models the container access raising. -/
structure CircularQueue (α : Type) where
  capacity : Nat
  front : Nat
  rear : Nat
  length : Nat
  array : Nat → Option α

/-- A fresh `CircularQueue(cap)`. -/
def CircularQueue.emptyQ (α : Type) (cap : Nat) : CircularQueue α :=
  ⟨cap, 0, 0, 0, fun _ => none⟩

/-- `CircularQueue.is_empty`. -/
def CircularQueue.is_empty {α : Type} (q : CircularQueue α) : Bool := q.length == 0

/-- `CircularQueue.is_full`. -/
def CircularQueue.is_full {α : Type} (q : CircularQueue α) : Bool :=
  q.capacity ≤ q.length

/-- Unchecked ring-buffer enqueue (the body of the course `append` after its
capacity check): write at `rear`, advance `rear` modulo the capacity. -/
def CircularQueue.appendU {α : Type} (q : CircularQueue α) (x : α) : CircularQueue α :=
  { q with
    array := fun i => if i = q.rear then some x else q.array i,
    rear := (q.rear + 1) % q.capacity,
    length := q.length + 1 }

/-- `CircularQueue.append`: the course container raises when full (`none`). -/
def CircularQueue.append {α : Type} (q : CircularQueue α) (x : α) :
    Option (CircularQueue α) :=
  if q.is_full then none else some (q.appendU x)

/-- The item `serve` returns: the slot at `front` (`none` = unwritten slot,
i.e. the access raises; never the case for queues built by the store ops). -/
def CircularQueue.serveItem {α : Type} (q : CircularQueue α) : Option α :=
  q.array q.front

/-- The queue state after `serve`: advance `front` modulo the capacity and
decrement `length` (the slot itself is not cleared, as in the course
container). -/
def CircularQueue.serveQ {α : Type} (q : CircularQueue α) : CircularQueue α :=
  { q with front := (q.front + 1) % q.capacity, length := q.length - 1 }

/-- The logical content of a ring buffer: `q` holds exactly the elements of
`l`, oldest first, at slots `front, front+1, …` modulo the capacity. -/
structure CQRealizes {α : Type} (q : CircularQueue α) (l : List α) : Prop where
  cap_pos : 0 < q.capacity
  front_lt : q.front < q.capacity
  len_eq : q.length = l.length
  len_le : l.length ≤ q.capacity
  rear_eq : q.rear = (q.front + l.length) % q.capacity
  read_eq : ∀ k, k < l.length → q.array ((q.front + k) % q.capacity) = l.get? k
  high_none : ∀ i, q.capacity ≤ i → q.array i = none

theorem cqRealizes_empty (α : Type) (cap : Nat) (hcap : 0 < cap) :
    CQRealizes (CircularQueue.emptyQ α cap) [] := by
  refine ⟨hcap, hcap, rfl, Nat.zero_le _, by simp [CircularQueue.emptyQ], ?_, ?_⟩
  · intro k hk; cases hk
  · intro i _; rfl

theorem cqRealizes_appendU {α : Type} {q : CircularQueue α} {l : List α}
    (h : CQRealizes q l) (x : α) (hroom : l.length < q.capacity) :
    CQRealizes (q.appendU x) (l ++ [x]) := by
  rcases h with ⟨hcap, hfr, hlen, hle, hrear, hread, hhigh⟩
  have hrear_lt : q.rear < q.capacity := by rw [hrear]; exact Nat.mod_lt _ hcap
  refine ⟨?_, ?_, ?_, ?_, ?_, ?_, ?_⟩
  · simpa [CircularQueue.appendU] using hcap
  · simpa [CircularQueue.appendU] using hfr
  · simp [CircularQueue.appendU, hlen]
  · simp only [CircularQueue.appendU, List.length_append, List.length_cons,
      List.length_nil]
    omega
  · simp only [CircularQueue.appendU, List.length_append, List.length_cons,
      List.length_nil, hrear]
    rw [Nat.mod_add_mod]
    congr 1

  · intro k hk
    simp only [List.length_append, List.length_cons, List.length_nil] at hk
    simp only [CircularQueue.appendU]
    by_cases hkl : k < l.length
    · have hne : (q.front + k) % q.capacity ≠ q.rear := by
        rw [hrear]
        intro hcontra
        have h2 : k % q.capacity = l.length % q.capacity :=
          Nat.ModEq.add_left_cancel' q.front hcontra
        rw [Nat.mod_eq_of_lt (lt_trans hkl hroom), Nat.mod_eq_of_lt hroom] at h2
        omega
      rw [if_neg hne, hread k hkl, List.get?_append hkl]
    · have hkeq : k = l.length := by omega
      subst hkeq
      rw [if_pos (by rw [hrear]), List.get?_append_right (le_refl _)]
      simp
  · intro i hi
    simp only [CircularQueue.appendU] at hi ⊢
    rw [if_neg (by omega), hhigh i hi]

theorem cqRealizes_serve {α : Type} {q : CircularQueue α} {x : α} {rest : List α}
    (h : CQRealizes q (x :: rest)) :
    q.serveItem = some x ∧ CQRealizes q.serveQ rest := by
  rcases h with ⟨hcap, hfr, hlen, hle, hrear, hread, hhigh⟩
  constructor
  · have h0 := hread 0 (Nat.succ_pos _)
    rw [Nat.add_zero, Nat.mod_eq_of_lt hfr] at h0
    exact h0
  · refine ⟨?_, ?_, ?_, ?_, ?_, ?_, ?_⟩
    · simpa [CircularQueue.serveQ] using hcap
    · simpa [CircularQueue.serveQ] using Nat.mod_lt (q.front + 1) hcap
    · simp only [CircularQueue.serveQ, hlen, List.length_cons]
      omega
    · simp only [CircularQueue.serveQ]
      simp only [List.length_cons] at hle
      omega
    · simp only [CircularQueue.serveQ, hrear, List.length_cons]
      rw [Nat.mod_add_mod]
      congr 1
      omega
    · intro k hk
      simp only [CircularQueue.serveQ]
      rw [Nat.mod_add_mod]
      have hidx : q.front + 1 + k = q.front + (k + 1) := by omega
      rw [hidx, hread (k + 1) (by simpa using Nat.succ_lt_succ hk)]
      rfl
    · intro i hi
      simp only [CircularQueue.serveQ] at hi
      exact hhigh i hi

/-! ### AdditiveLayerStore (`layer_store.py`, lines 158-303) -/

/-- Modelled from the spec / the source docstring: the registry of
`layers.py` holds 9 layer types ("The Maximum of CircularQueue will be
9*100 = 900"). -/
def NUM_LAYERS : Nat := 9

/-- State of `AdditiveLayerStore`: its FIFO queue of layers. -/
structure AdditiveLayerStore where
  queue : CircularQueue Layer

/-- `AdditiveLayerStore.__init__`: queue capacity `100 * len(get_layers())`. -/
def AdditiveLayerStore.init : AdditiveLayerStore :=
  ⟨CircularQueue.emptyQ _ (100 * NUM_LAYERS)⟩

/-- `AdditiveLayerStore.add`: report `false` when full, else enqueue. -/
def AdditiveLayerStore.add (s : AdditiveLayerStore) (l : Layer) :
    Bool × AdditiveLayerStore :=
  if s.queue.is_full then (false, s) else (true, ⟨s.queue.appendU l⟩)

/-- `AdditiveLayerStore.erase`: report `false` when empty, else serve (the
served item is discarded; the argument is ignored). -/
def AdditiveLayerStore.erase (s : AdditiveLayerStore) (_l : Layer) :
    Bool × AdditiveLayerStore :=
  if s.queue.is_empty then (false, s) else (true, ⟨s.queue.serveQ⟩)

/-- The loop of `AdditiveLayerStore.get_color`: fold `apply` over the raw
array slots `i, i+1, …` — no modulo wrap, exactly the source's
`for i in range(front, length+front): queue.array[i]`; a `none` read is the
array access raising. -/
def rawFold (arr : Nat → Option Layer) (t x y : Nat) :
    Nat → Nat → Color → Option Color
  | _, 0, acc => some acc
  | i, n + 1, acc =>
    match arr i with
    | none => none
    | some l => rawFold arr t x y (i + 1) n (l.apply acc t x y)

/-- `AdditiveLayerStore.get_color`: `start` when empty, else the raw-slot
fold starting at `front`. -/
def AdditiveLayerStore.get_color (s : AdditiveLayerStore) (start : Color)
    (t x y : Nat) : Option Color :=
  if s.queue.is_empty then some start
  else rawFold s.queue.array t x y s.queue.front s.queue.length start

/-- The first loop of `AdditiveLayerStore.special`: serve `n` items, pushing
each onto the scratch stack (`st`, head = top).  A `none` served item is the
container access raising (never reached from store-built states). -/
def drainU : Nat → CircularQueue Layer → List Layer →
    Option (List Layer × CircularQueue Layer)
  | 0, q, st => some (st, q)
  | n + 1, q, st =>
    match q.serveItem with
    | none => none
    | some l => drainU n q.serveQ (l :: st)

/-- The second loop of `AdditiveLayerStore.special`: pop each item from the
scratch stack and re-append it (the capacity check cannot fire: the queue
was just drained, so there is room for everything popped). -/
def refillU : List Layer → CircularQueue Layer → CircularQueue Layer
  | [], q => q
  | l :: rest, q => refillU rest (q.appendU l)

/-- `AdditiveLayerStore.special`: drain the whole queue into a LIFO scratch
stack, then re-enqueue by popping it. -/
def AdditiveLayerStore.special (s : AdditiveLayerStore) :
    Option AdditiveLayerStore :=
  match drainU s.queue.length s.queue [] with
  | none => none
  | some (st, q') => some ⟨refillU st q'⟩

/-- `add`/`erase`/`special` calls on an Additive store. -/
inductive AddOp where
  | add (l : Layer)
  | erase (l : Layer)
  | special

/-- Run one Additive-store call (`none` = the call raised). -/
def AdditiveLayerStore.runOp (s : AdditiveLayerStore) :
    AddOp → Option AdditiveLayerStore
  | .add l => some (s.add l).2
  | .erase l => some (s.erase l).2
  | .special => s.special

/-- Run a sequence of Additive-store calls. -/
def AdditiveLayerStore.runOps (s : AdditiveLayerStore) :
    List AddOp → Option AdditiveLayerStore
  | [] => some s
  | op :: rest =>
    match s.runOp op with
    | none => none
    | some s' => AdditiveLayerStore.runOps s' rest

theorem drainU_realizes (l : List Layer) :
    ∀ (q : CircularQueue Layer) (st : List Layer), CQRealizes q l →
      ∃ q', drainU l.length q st = some (l.reverse ++ st, q') ∧
        CQRealizes q' [] ∧ q'.capacity = q.capacity ∧
        q'.front = (q.front + l.length) % q.capacity := by
  induction l with
  | nil =>
    exact fun q st h =>
      ⟨q, rfl, h, rfl, by simp [Nat.mod_eq_of_lt h.front_lt]⟩
  | cons x rest ih =>
    intro q st h
    rcases cqRealizes_serve h with ⟨hit, hrest⟩
    rcases ih q.serveQ (x :: st) hrest with ⟨q', heq, hreal, hcap, hfront⟩
    refine ⟨q', ?_, hreal, hcap, ?_⟩
    · rw [List.length_cons, drainU, hit]
      dsimp only
      rw [heq]
      rw [List.reverse_cons, List.append_assoc]
      rfl
    · rw [hfront]
      simp only [CircularQueue.serveQ]
      rw [Nat.mod_add_mod, List.length_cons]
      congr 1
      omega

theorem refillU_realizes (ys : List Layer) :
    ∀ (q : CircularQueue Layer) (m : List Layer), CQRealizes q m →
      m.length + ys.length ≤ q.capacity →
      CQRealizes (refillU ys q) (m ++ ys) ∧ (refillU ys q).capacity = q.capacity ∧
        (refillU ys q).front = q.front := by
  induction ys with
  | nil => exact fun q m h _ => ⟨by simpa using h, rfl, rfl⟩
  | cons y rest ih =>
    intro q m h hroom
    simp only [List.length_cons] at hroom
    have happ := cqRealizes_appendU h y (by omega)
    rcases ih (q.appendU y) (m ++ [y]) happ
      (by simp only [CircularQueue.appendU, List.length_append, List.length_cons,
            List.length_nil]; omega) with ⟨hreal, hcap, hfront⟩
    refine ⟨?_, ?_, ?_⟩
    · rw [refillU]
      have hli : (m ++ [y]) ++ rest = m ++ (y :: rest) := by
        rw [List.append_assoc]; rfl
      rw [← hli]
      exact hreal
    · rw [refillU, hcap]
      rfl
    · rw [refillU, hfront]
      rfl

theorem additive_special_realizes (s : AdditiveLayerStore) (l : List Layer)
    (h : CQRealizes s.queue l) :
    ∃ s', s.special = some s' ∧ CQRealizes s'.queue l.reverse ∧
      s'.queue.capacity = s.queue.capacity ∧
      s'.queue.front = (s.queue.front + l.length) % s.queue.capacity := by
  rw [AdditiveLayerStore.special, h.len_eq]
  rcases drainU_realizes l s.queue [] h with ⟨q', heq, hreal, hcap, hfront⟩
  rw [List.append_nil] at heq
  rw [heq]
  have hroom : (0 : Nat) + l.reverse.length ≤ q'.capacity := by
    rw [hcap, List.length_reverse]
    simpa using h.len_le
  rcases refillU_realizes l.reverse q' [] hreal (by simpa using hroom)
    with ⟨hreal2, hcap2, hfront2⟩
  exact ⟨⟨refillU l.reverse q'⟩, rfl, by simpa using hreal2, by rw [hcap2, hcap],
    by rw [hfront2, hfront]⟩

theorem rawFold_of_reads (arr : Nat → Option Layer) (t x y : Nat) (l : List Layer) :
    ∀ (i : Nat) (acc : Color), (∀ k, k < l.length → arr (i + k) = l.get? k) →
      rawFold arr t x y i l.length acc =
        some (l.foldl (fun c ly => ly.apply c t x y) acc) := by
  induction l with
  | nil => intro i acc _; rfl
  | cons hd tl ih =>
    intro i acc hread
    have h0 : arr i = some hd := by
      have := hread 0 (Nat.succ_pos _)
      rwa [Nat.add_zero] at this
    rw [List.length_cons, rawFold, h0]
    exact ih (i + 1) (hd.apply acc t x y)
      (fun k hk => by
        have := hread (k + 1) (Nat.succ_lt_succ hk)
        rw [show i + (k + 1) = i + 1 + k by omega] at this
        exact this)

theorem rawFold_none (arr : Nat → Option Layer) (t x y : Nat) :
    ∀ (n i : Nat) (acc : Color) (j : Nat), j < n → arr (i + j) = none →
      rawFold arr t x y i n acc = none := by
  intro n
  induction n with
  | zero => intro i acc j hj; omega
  | succ n ih =>
    intro i acc j hj hnone
    rw [rawFold]
    cases harr : arr i with
    | none => rfl
    | some l =>
      have hj0 : j ≠ 0 := by
        intro hcontra
        rw [hcontra, Nat.add_zero, harr] at hnone
        cases hnone
      refine ih (i + 1) (l.apply acc t x y) (j - 1) (by omega) ?_
      rw [show i + 1 + (j - 1) = i + j by omega]
      exact hnone

theorem additive_get_color_no_wrap (s : AdditiveLayerStore) (l : List Layer)
    (h : CQRealizes s.queue l)
    (hnw : s.queue.front + l.length ≤ s.queue.capacity)
    (start : Color) (t x y : Nat) :
    s.get_color start t x y =
      some (l.foldl (fun c ly => ly.apply c t x y) start) := by
  rw [AdditiveLayerStore.get_color]
  cases l with
  | nil =>
    rw [if_pos (by simp [CircularQueue.is_empty, h.len_eq])]
    rfl
  | cons hd tl =>
    rw [if_neg (by simp [CircularQueue.is_empty, h.len_eq])]
    rw [h.len_eq]
    apply rawFold_of_reads
    intro k hk
    have hr := h.read_eq k hk
    rwa [Nat.mod_eq_of_lt (by omega)] at hr

theorem additive_get_color_wrapped (s : AdditiveLayerStore) (l : List Layer)
    (h : CQRealizes s.queue l)
    (hw : s.queue.capacity < s.queue.front + l.length)
    (start : Color) (t x y : Nat) :
    s.get_color start t x y = none := by
  have hfr := h.front_lt
  have hpos : 0 < l.length := by omega
  have hlen0 : s.queue.length ≠ 0 := by rw [h.len_eq]; omega
  rw [AdditiveLayerStore.get_color,
    if_neg (by simp only [CircularQueue.is_empty, beq_iff_eq]; exact hlen0), h.len_eq]
  refine rawFold_none _ _ _ _ _ _ _ (s.queue.capacity - s.queue.front) (by omega) ?_
  rw [show s.queue.front + (s.queue.capacity - s.queue.front) = s.queue.capacity
    by omega]
  exact h.high_none _ (le_refl _)

theorem additive_add_step (s : AdditiveLayerStore) (l : List Layer) (x : Layer)
    (h : CQRealizes s.queue l) (hroom : l.length < s.queue.capacity) :
    s.add x = (true, ⟨s.queue.appendU x⟩) ∧
      CQRealizes (s.queue.appendU x) (l ++ [x]) := by
  refine ⟨?_, cqRealizes_appendU h x hroom⟩
  rw [AdditiveLayerStore.add, if_neg]
  simp only [CircularQueue.is_full, h.len_eq, decide_eq_true_eq]
  omega

theorem runOps_append (s : AdditiveLayerStore) (ops1 ops2 : List AddOp) :
    s.runOps (ops1 ++ ops2) =
      match s.runOps ops1 with
      | none => none
      | some s' => s'.runOps ops2 := by
  induction ops1 generalizing s with
  | nil => rfl
  | cons op rest ih =>
    cases hop : s.runOp op with
    | none => simp [AdditiveLayerStore.runOps, hop]
    | some s1 => simp [AdditiveLayerStore.runOps, hop, ih s1]

theorem runOps_specials (k : Nat) :
    ∀ (s : AdditiveLayerStore) (l : List Layer), CQRealizes s.queue l →
      ∃ s' l', s.runOps (List.replicate k AddOp.special) = some s' ∧
        CQRealizes s'.queue l' ∧ l'.length = l.length ∧
        s'.queue.capacity = s.queue.capacity ∧
        s'.queue.front = (s.queue.front + k * l.length) % s.queue.capacity := by
  induction k with
  | zero =>
    intro s l h
    exact ⟨s, l, rfl, h, rfl, rfl, by simp [Nat.mod_eq_of_lt h.front_lt]⟩
  | succ k ih =>
    intro s l h
    rcases additive_special_realizes s l h with ⟨s1, heq, hreal, hcap, hfront⟩
    rcases ih s1 l.reverse hreal with ⟨s', l', heq2, hreal2, hlen2, hcap2, hfront2⟩
    refine ⟨s', l', ?_, hreal2, by rw [hlen2, List.length_reverse],
      by rw [hcap2, hcap], ?_⟩
    · rw [List.replicate_succ]
      have hop : s.runOp AddOp.special = some s1 := heq
      simp only [AdditiveLayerStore.runOps, hop]
      exact heq2
    · rw [hfront2, hcap, hfront, List.length_reverse, Nat.mod_add_mod]
      congr 1
      ring

theorem runOps_adds (x : Layer) (k : Nat) :
    ∀ (s : AdditiveLayerStore) (l : List Layer), CQRealizes s.queue l →
      l.length + k ≤ s.queue.capacity →
      ∃ s', s.runOps (List.replicate k (AddOp.add x)) = some s' ∧
        CQRealizes s'.queue (l ++ List.replicate k x) ∧
        s'.queue.capacity = s.queue.capacity ∧
        s'.queue.front = s.queue.front := by
  induction k with
  | zero =>
    intro s l h _
    exact ⟨s, rfl, by simpa using h, rfl, rfl⟩
  | succ k ih =>
    intro s l h hroom
    rcases additive_add_step s l x h (by omega) with ⟨heq, hreal⟩
    rcases ih ⟨s.queue.appendU x⟩ (l ++ [x]) hreal
      (by simp only [CircularQueue.appendU, List.length_append, List.length_cons,
            List.length_nil]; omega) with ⟨s', heq2, hreal2, hcap2, hfront2⟩
    refine ⟨s', ?_, ?_, ?_, ?_⟩
    · rw [List.replicate_succ]
      have hop : s.runOp (AddOp.add x) = some ⟨s.queue.appendU x⟩ := by
        simp only [AdditiveLayerStore.runOp, heq]
      simp only [AdditiveLayerStore.runOps, hop]
      exact heq2
    · rw [List.replicate_succ]
      have hli : (l ++ [x]) ++ List.replicate k x = l ++ x :: List.replicate k x := by
        rw [List.append_assoc]; rfl
      rw [← hli]
      exact hreal2
    · rw [hcap2]; rfl
    · rw [hfront2]; rfl

/-- `layerB.apply` is the identity, so folding any number of its copies
returns the start colour. -/
theorem foldl_layerB_replicate (k : Nat) :
    ∀ (start : Color) (t x y : Nat),
      (List.replicate k layerB).foldl (fun c ly => ly.apply c t x y) start = start := by
  induction k with
  | zero => intro start t x y; rfl
  | succ k ih =>
    intro start t x y
    rw [List.replicate_succ, List.foldl_cons]
    exact ih _ t x y

/-- The four preparatory calls of the C2 failing run: three adds and one
erase, leaving two layers with `front = 1`. -/
def c2Prefix : List AddOp :=
  [AddOp.add layerB, AddOp.add layerB, AddOp.add layerB, AddOp.erase layerB]

/-- An op sequence after which the Additive queue's live region wraps around
the end of the backing array: after `c2Prefix` the store holds 2 layers at
`front = 1`, and each of the 449 `special()` calls advances `front` by 2, so
the state reached has `front = 899` and `get_color`'s unwrapped slot scan
reads raw index 900 — past the 900-slot array. -/
def c2Ops : List AddOp := c2Prefix ++ List.replicate 449 AddOp.special

/-- The queue after `c2Prefix`. -/
def c2MidQueue : CircularQueue Layer :=
  (((AdditiveLayerStore.init.queue.appendU layerB).appendU
    layerB).appendU layerB).serveQ

theorem c2MidQueue_realizes : CQRealizes c2MidQueue [layerB, layerB] := by
  have h0 : CQRealizes AdditiveLayerStore.init.queue [] :=
    cqRealizes_empty Layer (100 * NUM_LAYERS) (by decide)
  have h1 := cqRealizes_appendU h0 layerB (by decide)
  have h2 := cqRealizes_appendU h1 layerB (by decide)
  have h3 := cqRealizes_appendU h2 layerB (by decide)
  exact (cqRealizes_serve (by simpa using h3)).2

theorem c2_failing_state :
    ∃ s', AdditiveLayerStore.init.runOps c2Ops = some s' ∧
      s'.get_color (0, 0, 0) 0 0 0 = none := by
  have hmid : CQRealizes c2MidQueue [layerB, layerB] := c2MidQueue_realizes
  rcases runOps_specials 449 ⟨c2MidQueue⟩ [layerB, layerB] hmid
    with ⟨s', l', heqS, hreS, hlenS, hcapS, hfrontS⟩
  have hrun4 : AdditiveLayerStore.init.runOps c2Prefix = some ⟨c2MidQueue⟩ := rfl
  refine ⟨s', ?_, ?_⟩
  · rw [c2Ops, runOps_append, hrun4]
    dsimp only
    exact heqS
  · have hlen' : l'.length = 2 := by rw [hlenS]; rfl
    have hcap' : s'.queue.capacity = 900 := by rw [hcapS]; rfl
    have hfr' : s'.queue.front = 899 := by rw [hfrontS]; rfl
    exact additive_get_color_wrapped s' l' hreS (by omega) (0, 0, 0) 0 0 0

/-- C2: what holds is only the no-wrap half: when the live region
`front … front+count-1` does not wrap around the backing array, `get_color`
returns the oldest-first fold (conjunct 1).  But the loop reads raw slots
without the modulo, so on the reachable state built by `c2Ops` (no call of
which raises) `get_color` reads past the array and raises — modelled as
`none` (conjunct 2). -/
theorem c2_additive_get_color (s : AdditiveLayerStore) (l : List Layer)
    (h : CQRealizes s.queue l)
    (hnw : s.queue.front + l.length ≤ s.queue.capacity)
    (start : Color) (t x y : Nat) :
    s.get_color start t x y =
      some (l.foldl (fun c ly => ly.apply c t x y) start) ∧
    (∃ s', AdditiveLayerStore.init.runOps c2Ops = some s' ∧
      s'.get_color (0, 0, 0) 0 0 0 = none) :=
  ⟨additive_get_color_no_wrap s l h hnw start t x y, c2_failing_state⟩

/-- C2 witness: the no-wrap fold at a queue holding one layer. -/
theorem c2_additive_get_color_witness :
    AdditiveLayerStore.get_color ⟨(CircularQueue.emptyQ Layer 900).appendU layerB⟩
        (1, 2, 3) 0 0 0 =
      some ([layerB].foldl (fun c ly => ly.apply c 0 0 0) (1, 2, 3)) ∧
    (∃ s', AdditiveLayerStore.init.runOps c2Ops = some s' ∧
      s'.get_color (0, 0, 0) 0 0 0 = none) :=
  c2_additive_get_color ⟨(CircularQueue.emptyQ Layer 900).appendU layerB⟩ [layerB]
    (cqRealizes_appendU (cqRealizes_empty Layer 900 (by omega)) layerB (by decide))
    (by decide) (1, 2, 3) 0 0 0

/-- 301 adds: enough that after two `special()` calls `front = 602` and
`front + 301 > 900`, so the slot scan of `get_color` wraps. -/
def c6Ops : List AddOp := List.replicate 301 (AddOp.add layerB)

theorem c6_before_after :
    (∃ sb, AdditiveLayerStore.init.runOps c6Ops = some sb ∧
      sb.get_color (0, 0, 0) 0 0 0 = some (0, 0, 0)) ∧
    (∃ sa, AdditiveLayerStore.init.runOps
        (c6Ops ++ [AddOp.special, AddOp.special]) = some sa ∧
      sa.get_color (0, 0, 0) 0 0 0 = none) := by
  have h0 : CQRealizes AdditiveLayerStore.init.queue [] :=
    cqRealizes_empty Layer (100 * NUM_LAYERS) (by decide)
  rcases runOps_adds layerB 301 AdditiveLayerStore.init [] h0 (by decide)
    with ⟨sb, heqB, hreB, hcapB, hfrontB⟩
  have hreB' : CQRealizes sb.queue (List.replicate 301 layerB) := by simpa using hreB
  have hcapB' : sb.queue.capacity = 900 := by rw [hcapB]; rfl
  have hfrontB' : sb.queue.front = 0 := by rw [hfrontB]; rfl
  constructor
  · refine ⟨sb, heqB, ?_⟩
    have hout := additive_get_color_no_wrap sb (List.replicate 301 layerB) hreB'
      (by rw [hcapB', hfrontB']; simp) (0, 0, 0) 0 0 0
    rwa [foldl_layerB_replicate] at hout
  · rcases runOps_specials 2 sb (List.replicate 301 layerB) hreB'
      with ⟨sa, l', heqS, hreS, hlenS, hcapS, hfrontS⟩
    refine ⟨sa, ?_, ?_⟩
    · rw [runOps_append,
        show AdditiveLayerStore.init.runOps c6Ops = some sb from heqB]
      dsimp only
      exact heqS
    · have hlen' : l'.length = 301 := by rw [hlenS]; simp
      have hcap' : sa.queue.capacity = 900 := by rw [hcapS, hcapB']
      have hfr' : sa.queue.front = 602 := by
        rw [hfrontS, hfrontB', hcapB']
        simp
      exact additive_get_color_wrapped sa l' hreS (by omega) (0, 0, 0) 0 0 0

/-- C6: `special()` does reverse the enqueue order of the held layers
without changing membership or count (conjunct 1), and two `special()`
calls restore the original FIFO content (conjunct 2).  But the claimed
consequence — identical `get_color` output before and after the double
call — fails on the code: after 301 adds `get_color` returns the fold,
while after the double call it raises (reads past the array), modelled as
`none` (conjuncts 3, 4). -/
theorem c6_additive_special (s : AdditiveLayerStore) (l : List Layer)
    (h : CQRealizes s.queue l) :
    (∃ s', s.special = some s' ∧ CQRealizes s'.queue l.reverse ∧
      s'.queue.capacity = s.queue.capacity) ∧
    (∃ s' s'', s.special = some s' ∧ s'.special = some s'' ∧
      CQRealizes s''.queue l) ∧
    (∃ sb, AdditiveLayerStore.init.runOps c6Ops = some sb ∧
      sb.get_color (0, 0, 0) 0 0 0 = some (0, 0, 0)) ∧
    (∃ sa, AdditiveLayerStore.init.runOps
        (c6Ops ++ [AddOp.special, AddOp.special]) = some sa ∧
      sa.get_color (0, 0, 0) 0 0 0 = none) := by
  obtain ⟨s', heq, hreal, hcap, -⟩ := additive_special_realizes s l h
  obtain ⟨s'', heq2, hreal2, -, -⟩ := additive_special_realizes s' l.reverse hreal
  rw [List.reverse_reverse] at hreal2
  exact ⟨⟨s', heq, hreal, hcap⟩, ⟨s', s'', heq, heq2, hreal2⟩,
    c6_before_after.1, c6_before_after.2⟩

/-- C6 witness: the reversal and involution at a queue holding one layer. -/
theorem c6_additive_special_witness :
    (∃ s', AdditiveLayerStore.special
        ⟨(CircularQueue.emptyQ Layer 900).appendU layerB⟩ = some s' ∧
      CQRealizes s'.queue [layerB].reverse ∧
      s'.queue.capacity =
        ((CircularQueue.emptyQ Layer 900).appendU layerB).capacity) ∧
    (∃ s' s'', AdditiveLayerStore.special
        ⟨(CircularQueue.emptyQ Layer 900).appendU layerB⟩ = some s' ∧
      s'.special = some s'' ∧ CQRealizes s''.queue [layerB]) ∧
    (∃ sb, AdditiveLayerStore.init.runOps c6Ops = some sb ∧
      sb.get_color (0, 0, 0) 0 0 0 = some (0, 0, 0)) ∧
    (∃ sa, AdditiveLayerStore.init.runOps
        (c6Ops ++ [AddOp.special, AddOp.special]) = some sa ∧
      sa.get_color (0, 0, 0) 0 0 0 = none) :=
  c6_additive_special ⟨(CircularQueue.emptyQ Layer 900).appendU layerB⟩ [layerB]
    (cqRealizes_appendU (cqRealizes_empty Layer 900 (by omega)) layerB (by decide))

/-! ### ReplayTracker (`replay.py`) -/

/-- State of `ReplayTracker`: the recorded FIFO of `ListItem(action,
is_undo)` pairs (a `ListItem` keyed by the undo flag, as in the source). -/
structure ReplayTracker (γ : Type) where
  replay_sample_list : CircularQueue (ListItem Bool (PaintAction γ))

/-- `ReplayTracker.__init__`: capacity 10000. -/
def ReplayTracker.init (γ : Type) : ReplayTracker γ :=
  ⟨CircularQueue.emptyQ _ 10000⟩

/-- `ReplayTracker.add_action`: wraps `(action, is_undo)` as a `ListItem`
and appends it with no capacity check of its own — on a full queue the
container's failure propagates (`none`); on success nothing is reported. -/
def ReplayTracker.add_action {γ : Type} (tr : ReplayTracker γ)
    (action : PaintAction γ) (is_undo : Bool) : Option (ReplayTracker γ) :=
  match tr.replay_sample_list.append ⟨action, is_undo⟩ with
  | none => none
  | some q => some ⟨q⟩

/-- `ReplayTracker.play_next_action`: `true` = "nothing left" (grid
untouched), `false` = "an action was played"; dequeue the oldest pair and
apply the inverse effect when recorded as an undo, else the forward
effect. -/
def ReplayTracker.play_next_action {γ : Type} (tr : ReplayTracker γ) (g : γ) :
    Option (Bool × ReplayTracker γ × γ) :=
  if tr.replay_sample_list.is_empty then some (true, tr, g)
  else
    match tr.replay_sample_list.serveItem with
    | none => none
    | some item =>
      some (false, ⟨tr.replay_sample_list.serveQ⟩,
        if item.key then item.value.undo_apply g else item.value.redo_apply g)

/-- C8: `play_next_action(grid)` on an exhausted log reports "nothing left"
(`true`) without touching tracker or grid; otherwise it dequeues the oldest
recorded pair, applies the inverse effect when the pair was recorded as an
undo and the forward effect otherwise, and reports "played" (`false`) — the
remaining log being the recorded tail.  For the  log
`[A(false), B(false), B(true)]` three plays apply forward(A), forward(B),
inverse(B) in that order and a fourth play reports "nothing left". -/
theorem c8_replay_play (γ : Type) (tr : ReplayTracker γ)
    (l : List (ListItem Bool (PaintAction γ)))
    (h : CQRealizes tr.replay_sample_list l) (g : γ) (A B : PaintAction γ) :
    (l = [] → tr.play_next_action g = some (true, tr, g)) ∧
    (∀ p rest, l = p :: rest →
      tr.play_next_action g = some (false, ⟨tr.replay_sample_list.serveQ⟩,
        if p.key then p.value.undo_apply g else p.value.redo_apply g) ∧
      CQRealizes tr.replay_sample_list.serveQ rest) ∧
    (∃ t1 t2 t3 t4 t5 t6 : ReplayTracker γ,
      (ReplayTracker.init γ).add_action A false = some t1 ∧
      t1.add_action B false = some t2 ∧
      t2.add_action B true = some t3 ∧
      t3.play_next_action g = some (false, t4, A.redo_apply g) ∧
      t4.play_next_action (A.redo_apply g) =
        some (false, t5, B.redo_apply (A.redo_apply g)) ∧
      t5.play_next_action (B.redo_apply (A.redo_apply g)) =
        some (false, t6, B.undo_apply (B.redo_apply (A.redo_apply g))) ∧
      t6.play_next_action (B.undo_apply (B.redo_apply (A.redo_apply g))) =
        some (true, t6, B.undo_apply (B.redo_apply (A.redo_apply g)))) := by
  refine ⟨?_, ?_, ?_⟩
  · rintro rfl
    rw [ReplayTracker.play_next_action,
      if_pos (by simp [CircularQueue.is_empty, h.len_eq])]
  · rintro p rest rfl
    rcases cqRealizes_serve h with ⟨hit, hrest⟩
    refine ⟨?_, hrest⟩
    rw [ReplayTracker.play_next_action,
      if_neg (by simp [CircularQueue.is_empty, h.len_eq]), hit]
  · exact ⟨_, _, _, _, _, _, rfl, rfl, rfl, rfl, rfl, rfl, rfl⟩

/-- C8 witness: the theorem applied at the fresh (empty-log) tracker over
`Nat` grids. -/
theorem c8_replay_play_witness :
    (([] : List (ListItem Bool (PaintAction Nat))) = [] →
      (ReplayTracker.init Nat).play_next_action 7 =
        some (true, ReplayTracker.init Nat, 7)) ∧
    (∀ p rest, ([] : List (ListItem Bool (PaintAction Nat))) = p :: rest →
      (ReplayTracker.init Nat).play_next_action 7 =
        some (false, ⟨(ReplayTracker.init Nat).replay_sample_list.serveQ⟩,
          if p.key then p.value.undo_apply 7 else p.value.redo_apply 7) ∧
      CQRealizes (ReplayTracker.init Nat).replay_sample_list.serveQ rest) ∧
    (∃ t1 t2 t3 t4 t5 t6 : ReplayTracker Nat,
      (ReplayTracker.init Nat).add_action incAction false = some t1 ∧
      t1.add_action incAction false = some t2 ∧
      t2.add_action incAction true = some t3 ∧
      t3.play_next_action 7 = some (false, t4, incAction.redo_apply 7) ∧
      t4.play_next_action (incAction.redo_apply 7) =
        some (false, t5, incAction.redo_apply (incAction.redo_apply 7)) ∧
      t5.play_next_action (incAction.redo_apply (incAction.redo_apply 7)) =
        some (false, t6,
          incAction.undo_apply (incAction.redo_apply (incAction.redo_apply 7))) ∧
      t6.play_next_action
          (incAction.undo_apply (incAction.redo_apply (incAction.redo_apply 7))) =
        some (true, t6,
          incAction.undo_apply (incAction.redo_apply (incAction.redo_apply 7)))) :=
  c8_replay_play Nat (ReplayTracker.init Nat) []
    (cqRealizes_empty _ 10000 (by omega)) 7 incAction incAction

/-- Repeated `add_action(a, false)` calls (`none` as soon as one raises). -/
def replayAddN {γ : Type} (a : PaintAction γ) : Nat → ReplayTracker γ →
    Option (ReplayTracker γ)
  | 0, tr => some tr
  | n + 1, tr =>
    match tr.add_action a false with
    | none => none
    | some tr' => replayAddN a n tr'

theorem replay_add_action_some {γ : Type} (tr : ReplayTracker γ)
    (l : List (ListItem Bool (PaintAction γ)))
    (h : CQRealizes tr.replay_sample_list l) (a : PaintAction γ) (u : Bool)
    (hroom : l.length < tr.replay_sample_list.capacity) :
    tr.add_action a u = some ⟨tr.replay_sample_list.appendU ⟨a, u⟩⟩ ∧
      CQRealizes (tr.replay_sample_list.appendU ⟨a, u⟩) (l ++ [⟨a, u⟩]) := by
  refine ⟨?_, cqRealizes_appendU h _ hroom⟩
  rw [ReplayTracker.add_action]
  have happ : tr.replay_sample_list.append ⟨a, u⟩ =
      some (tr.replay_sample_list.appendU ⟨a, u⟩) := by
    rw [CircularQueue.append, if_neg]
    simp only [CircularQueue.is_full, h.len_eq, decide_eq_true_eq]
    omega
  rw [happ]

theorem replay_add_action_full {γ : Type} (tr : ReplayTracker γ)
    (l : List (ListItem Bool (PaintAction γ)))
    (h : CQRealizes tr.replay_sample_list l) (a : PaintAction γ) (u : Bool)
    (hfull : tr.replay_sample_list.capacity ≤ l.length) :
    tr.add_action a u = none := by
  rw [ReplayTracker.add_action]
  have happ : tr.replay_sample_list.append (⟨a, u⟩ : ListItem Bool (PaintAction γ)) =
      none := by
    rw [CircularQueue.append, if_pos]
    simp only [CircularQueue.is_full, h.len_eq, decide_eq_true_eq]
    omega
  rw [happ]

theorem replayAddN_realizes {γ : Type} (a : PaintAction γ) (k : Nat) :
    ∀ (tr : ReplayTracker γ) (l : List (ListItem Bool (PaintAction γ))),
      CQRealizes tr.replay_sample_list l →
      l.length + k ≤ tr.replay_sample_list.capacity →
      ∃ tr', replayAddN a k tr = some tr' ∧
        CQRealizes tr'.replay_sample_list
          (l ++ List.replicate k (⟨a, false⟩ : ListItem Bool (PaintAction γ))) ∧
        tr'.replay_sample_list.capacity = tr.replay_sample_list.capacity := by
  induction k with
  | zero =>
    intro tr l h _
    exact ⟨tr, rfl, by simpa using h, rfl⟩
  | succ k ih =>
    intro tr l h hroom
    rcases replay_add_action_some tr l h a false (by omega) with ⟨heq, hreal⟩
    rcases ih ⟨tr.replay_sample_list.appendU ⟨a, false⟩⟩ (l ++ [⟨a, false⟩]) hreal
      (by simp only [CircularQueue.appendU, List.length_append, List.length_cons,
            List.length_nil]; omega) with ⟨tr', heq2, hreal2, hcap2⟩
    refine ⟨tr', ?_, ?_, ?_⟩
    · rw [replayAddN, heq]
      exact heq2
    · rw [List.replicate_succ]
      have hli : (l ++ [(⟨a, false⟩ : ListItem Bool (PaintAction γ))]) ++
          List.replicate k (⟨a, false⟩ : ListItem Bool (PaintAction γ)) =
          l ++ ⟨a, false⟩ :: List.replicate k ⟨a, false⟩ := by
        rw [List.append_assoc]; rfl
      rw [← hli]
      exact hreal2
    · rw [hcap2]; rfl

/-- C9: `add_action` on a replay log already holding 10000 entries raises
(the source appends with no capacity check, and on every path returns
`None`, reporting nothing): the model's `none` result.  The full tracker is
reached by 10000 recorded actions, none of which raises. -/
theorem c9_replay_add_action_overflow :
    ∃ tr : ReplayTracker Nat,
      replayAddN incAction 10000 (ReplayTracker.init Nat) = some tr ∧
      tr.replay_sample_list.length = 10000 ∧
      tr.add_action incAction false = none := by
  have h0 : CQRealizes (ReplayTracker.init Nat).replay_sample_list [] :=
    cqRealizes_empty _ 10000 (by omega)
  rcases replayAddN_realizes incAction 10000 (ReplayTracker.init Nat) [] h0
    (by exact Nat.le_refl 10000)
    with ⟨tr, heq, hreal, hcap⟩
  rw [List.nil_append] at hreal
  refine ⟨tr, heq, ?_, ?_⟩
  · rw [hreal.len_eq, List.length_replicate]
  · refine replay_add_action_full tr _ hreal incAction false ?_
    rw [hcap, List.length_replicate]
    exact Nat.le_refl 10000

end Paint
